import Mathlib

/-!
# Verification of the gobalancer forwarding engine

A shallow embedding of the gobalancer reverse proxy's core data structures
and operations, with theorems checking the natural-language specification
against the source.

Modelling conventions:
* Go maps are modelled as association lists without duplicate keys; the
  list order models one fixed iteration order of the map.
* Connection handles (`context.Context` values used as map keys, compared
  by identity) are modelled as natural numbers.
* Backend addresses are strings.
* A Go `nil` error is `Option.none`.
-/

namespace Gobalancer

/-- Backend address: an opaque string, the TCP dial target. -/
abbrev Addr := String

/-- A connection handle: a request-scoped `context.Context` compared by
identity, modelled as a natural number. -/
abbrev Ctx := Nat

/-- `activeConns` from `tracker.go`: the set of contexts of ongoing
connections routed to one backend, modelled as a duplicate-free list.
`len(activeConns)` is the number of active connections. -/
abbrev ActiveConns := List Ctx

/-- Go map lookup `m[k]` on a string-keyed map modelled as an association
list: the value of the first binding of `k`, if any. -/
def alookup {β : Type} : List (String × β) → String → Option β
  | [], _ => none
  | (a, v) :: rest, k => if a = k then some v else alookup rest k

/-- Go map update `m[k] = v` for a key already present (replace the
binding of `k`; other bindings are untouched). -/
def aset {β : Type} (m : List (String × β)) (k : String) (v : β) : List (String × β) :=
  m.map fun p => if p.1 = k then (k, v) else p

/-- Insertion `m[c] = struct{}{}` into an `activeConns` map: a no-op when
the key is already present. -/
def connsInsert (c : Ctx) (s : ActiveConns) : ActiveConns :=
  if c ∈ s then s else s ++ [c]

/-- Deletion `delete(m, c)` from an `activeConns` map. -/
def connsRemove (c : Ctx) (s : ActiveConns) : ActiveConns :=
  s.filter (fun x => x ≠ c)

/-- The `Tracker` struct from `tracker.go`, restricted to its two maps.
`healthyBackends : map[string]activeConns` maps each healthy backend
address to its set of in-flight connection contexts;
`backendCanceler : map[string]*backendCtx` maps each tracked address to its
backend-scoped cancellation context.  For the properties below only the
key set of `backendCanceler` is observable, so it is modelled by its list
of keys; the cancellation side effects of a `backendCtx` reach the maps
only through later `removeTrackedConn` calls, which are modelled as
separate transitions. -/
structure Tracker where
  healthyBackends : List (Addr × ActiveConns)
  backendCanceler : List Addr
  deriving Repr, DecidableEq

/-- `NewTracker`: both maps start empty. -/
def newTracker : Tracker := ⟨[], []⟩

/-- `Tracker.TrackBackend` (tracker.go:87-100): if the address is not a key
of `healthyBackends`, add an empty active-connection set and a fresh
backend canceler; otherwise no-op. -/
def trackBackend (t : Tracker) (addr : Addr) : Tracker :=
  if (alookup t.healthyBackends addr).isSome then t
  else
    { healthyBackends := t.healthyBackends ++ [(addr, [])]
      backendCanceler := t.backendCanceler ++ [addr] }

/-- `Tracker.UntrackBackend` (tracker.go:117-129): if the address is a key
of `backendCanceler`, fire its cancel (observable only through later
`removeTrackedConn` transitions) and delete the address from both maps;
otherwise no-op. -/
def untrackBackend (t : Tracker) (addr : Addr) : Tracker :=
  if addr ∈ t.backendCanceler then
    { healthyBackends := t.healthyBackends.filter (fun p => p.1 ≠ addr)
      backendCanceler := t.backendCanceler.filter (fun a => a ≠ addr) }
  else t

/-- `Tracker.removeTrackedConn` (tracker.go:55-59):
`delete(t.healthyBackends[addr], ctx)`.  When `addr` is not a key,
`t.healthyBackends[addr]` is a nil map and deletion from it is a no-op. -/
def removeTrackedConn (t : Tracker) (c : Ctx) (addr : Addr) : Tracker :=
  { t with healthyBackends :=
      t.healthyBackends.map fun p => if p.1 = addr then (p.1, connsRemove c p.2) else p }

/-- `Tracker.BackendActiveConns` (tracker.go:80-84):
`len(t.healthyBackends[addr])`, where a missing key gives the nil map of
length 0. -/
def backendActiveConns (t : Tracker) (addr : Addr) : Nat :=
  match alookup t.healthyBackends addr with
  | none => 0
  | some s => s.length

/-- `math.MaxInt32`, the sentinel initial minimum in `leastConnections`. -/
def maxInt32 : Nat := 2147483647

/-- The loop body of `Tracker.leastConnections` (tracker.go:104-114): scan
the healthy-backend map carrying `(choice, min)`, replacing the
accumulator whenever a strictly smaller active-connection count is seen. -/
def leastConnLoop : List (Addr × ActiveConns) → Addr × Nat → Addr × Nat
  | [], acc => acc
  | (b, conns) :: rest, acc =>
      leastConnLoop rest (if conns.length < acc.2 then (b, conns.length) else acc)

/-- `Tracker.leastConnections`: `choice` starts as the zero string and
`min` as `math.MaxInt32`. -/
def leastConnections (t : Tracker) : Addr :=
  (leastConnLoop t.healthyBackends ("", maxInt32)).1

/-- Outcome of `Tracker.NextWithContext`. `panicked` models the Go runtime
panic raised by `t.healthyBackends[addr][parent] = struct{}{}` when `addr`
is not a key (assignment into a nil map). -/
inductive NextOutcome where
  | notReady
  | panicked
  | ok (addr : Addr)
  deriving Repr, DecidableEq

/-- `Tracker.NextWithContext` (tracker.go:131-142): with no healthy
backends return `ErrUpstreamNotReady` and leave the state unchanged;
otherwise pick `leastConnections` and insert the parent context into that
address's active-connection set. -/
def nextWithContext (t : Tracker) (parent : Ctx) : Tracker × NextOutcome :=
  if t.healthyBackends.length = 0 then (t, .notReady)
  else
    let addr := leastConnections t
    match alookup t.healthyBackends addr with
    | none => (t, .panicked)
    | some conns =>
        ({ t with healthyBackends := aset t.healthyBackends addr (connsInsert parent conns) },
          .ok addr)

/-- One tracker operation, with arbitrary argument contexts and
addresses.  `removeTrackedConn` steps also model the asynchronous
`context.AfterFunc` cleanup registered by `trackCtx`
(tracker.go:61-78). -/
inductive Step : Tracker → Tracker → Prop
  | track (t : Tracker) (addr : Addr) : Step t (trackBackend t addr)
  | untrack (t : Tracker) (addr : Addr) : Step t (untrackBackend t addr)
  | next (t : Tracker) (parent : Ctx) : Step t (nextWithContext t parent).1
  | remove (t : Tracker) (c : Ctx) (addr : Addr) : Step t (removeTrackedConn t c addr)

/-- Tracker states reachable from `NewTracker` by any sequence of tracker
operations (`BackendActiveConns` is read-only and does not change the
state). -/
inductive Reachable : Tracker → Prop
  | init : Reachable newTracker
  | step {t t' : Tracker} : Reachable t → Step t t' → Reachable t'

/-- Tracker states reachable when every `NextWithContext` call's parent
context is fresh: it does not already sit in any backend's
active-connection set at the time of the call (in the proxy each
forwarded connection registers its context at most once). The other
operations take arbitrary arguments, as in `Reachable`. -/
inductive ReachableFresh : Tracker → Prop
  | init : ReachableFresh newTracker
  | track {t : Tracker} (addr : Addr) : ReachableFresh t → ReachableFresh (trackBackend t addr)
  | untrack {t : Tracker} (addr : Addr) :
      ReachableFresh t → ReachableFresh (untrackBackend t addr)
  | next {t : Tracker} (parent : Ctx) : ReachableFresh t →
      (∀ p ∈ t.healthyBackends, parent ∉ p.2) →
      ReachableFresh (nextWithContext t parent).1
  | remove {t : Tracker} (c : Ctx) (addr : Addr) :
      ReachableFresh t → ReachableFresh (removeTrackedConn t c addr)

/-- Invariant 1 of the spec: an address is a key of `healthyBackends`
exactly when it is a key of `backendCanceler`. -/
def sameKeys (t : Tracker) : Prop :=
  ∀ a, (alookup t.healthyBackends a).isSome ↔ a ∈ t.backendCanceler

/-- The keys of the modelled `healthyBackends` map are duplicate-free, as
the keys of a Go map always are. -/
def keysNodup (t : Tracker) : Prop :=
  (t.healthyBackends.map Prod.fst).Nodup

/-- Number of healthy-backend entries whose active-connection set
contains the connection handle `c` — the number of backends `c` is
currently counted against. -/
def connCount (t : Tracker) (c : Ctx) : Nat :=
  t.healthyBackends.countP fun p => decide (c ∈ p.2)

/-! ## Health checker (`forwarder/health/health.go`) -/

/-- `health.Status`: `INIT`, `SUCCESS`, `FAILED`. -/
inductive HealthStatus where
  | init
  | success
  | failed
  deriving Repr, DecidableEq

/-- Classification of a failed dial's error by what `errors.Is` finds in
its wrap chain: `canceled` iff `errors.Is(err, context.Canceled)`,
`deadlineExceeded` iff the chain contains `context.DeadlineExceeded`
(the error a timed-out deadline context produces), `other` otherwise. -/
inductive DialErr where
  | canceled
  | deadlineExceeded
  | other
  deriving Repr, DecidableEq

/-- Result of one `TCP.Check` call: the reported status, the `changed`
flag, the returned error, and the checker's stored status afterwards. -/
structure CheckResult where
  stat : HealthStatus
  changed : Bool
  err : Option DialErr
  newStatus : HealthStatus
  deriving Repr, DecidableEq

/-- `TCP.Check` (health.go): `stat` starts `SUCCESS` and `changed` true; a
dial error makes `stat = FAILED`; the error is then nulled exactly when
`errors.Is(err, context.Canceled)`; `changed` is cleared when the stored
status equals the new one; the new status is stored. `prev` is the
checker's stored `h.status` before the call and `dialErr` the outcome of
`d.DialContext` (`none` = successful dial). -/
def tcpCheck (prev : HealthStatus) (dialErr : Option DialErr) : CheckResult :=
  let stat := if dialErr.isSome then HealthStatus.failed else HealthStatus.success
  let err := if dialErr = some DialErr.canceled then none else dialErr
  { stat := stat
    changed := !(prev = stat : Bool)
    err := err
    newStatus := stat }

/-! ## Forwarder splice-error collection (`forwarder/forwarder.go`) -/

/-- `errors.Join` on two possibly-nil errors (errors modelled by
strings): nil when both are nil, otherwise an error carrying every
non-nil argument. -/
def joinErrors (e1 e2 : Option String) : Option String :=
  match e1, e2 with
  | none, none => none
  | some a, none => some a
  | none, some b => some b
  | some a, some b => some (a ++ "\n" ++ b)

/-- The error collection at the end of `LeastConnections.fwd`
(forwarder.go:70-75), given the errors of the two copy goroutines in the
order they arrive on `errc`:
`err = <-errc` takes the first; the statement `errors.Join(err, <-errc)`
receives the second but its result is not assigned to anything; then a
non-nil `err` is wrapped with `"failed to forward connection: "`. -/
def fwdCollectErr (first second : Option String) : Option String :=
  let err := first
  let _ := joinErrors err second
  match err with
  | some e => some ("failed to forward connection: " ++ e)
  | none => none

/-! ## Per-client rate limiter (`forwarder/ratelimit.go`) -/

/-- Modelled from the spec: the third-party `golang.org/x/time/rate`
token bucket (not part of this repository) in the `refill_per_second = 0`
case the claim fixes.  Per 4.G a bucket holds `current_tokens`, created
full at `max_tokens`; with zero refill a non-blocking one-token take
(`Allow`) succeeds exactly while tokens remain and never replenishes. -/
structure RateLimiter where
  tokens : Nat
  deriving Repr, DecidableEq

/-- `rate.NewLimiter(0, burst)`: the bucket starts full. -/
def newLimiter (burst : Nat) : RateLimiter := ⟨burst⟩

/-- `Limiter.Allow` with zero refill: take one token if any remains. -/
def rlAllow (l : RateLimiter) : Bool × RateLimiter :=
  if l.tokens = 0 then (false, l) else (true, ⟨l.tokens - 1⟩)

/-- `perClientRateLimiter` (ratelimit.go): the per-client bucket map with
the configured `maxTokens` (the zero-refill rate is fixed by the claim). -/
structure PerClientRL where
  maxTokens : Nat
  clientRL : List (String × RateLimiter)
  deriving Repr, DecidableEq

/-- `perClientRateLimiter.getRL`: return the client's limiter, creating a
fresh full one on first use. -/
def getRL (rl : PerClientRL) (key : String) : RateLimiter × PerClientRL :=
  match alookup rl.clientRL key with
  | some l => (l, rl)
  | none =>
      let l := newLimiter rl.maxTokens
      (l, { rl with clientRL := rl.clientRL ++ [(key, l)] })

/-- `perClientRateLimiter.rateLimit`: consult/create the bucket and make a
non-blocking one-token take; the boolean is `true` when allowed (`nil`
error) and `false` when the rate-limit error is returned. -/
def rateLimit (rl : PerClientRL) (key : String) : Bool × PerClientRL :=
  let g := getRL rl key
  let a := rlAllow g.1
  (a.1, { g.2 with clientRL := aset g.2.clientRL key a.2 })

/-- Run a sequence of `rateLimit` calls, collecting each call's
allow/deny outcome. -/
def runRateLimit (rl : PerClientRL) : List String → PerClientRL × List Bool
  | [] => (rl, [])
  | key :: rest =>
      let r := rateLimit rl key
      let out := runRateLimit r.2 rest
      (out.1, r.1 :: out.2)

/-- A fresh `perClientRateLimiter` as built in
`NewLeastConnectionsFromConfig`: an empty client map. -/
def freshRL (maxTokens : Nat) : PerClientRL := ⟨maxTokens, []⟩

/-- The behaviour the claim describes, stated from its words: a call is
allowed exactly when fewer than `maxTokens` calls with the same key
precede it (`prev` is the list of keys of earlier calls). -/
def expectedRLResults (maxTokens : Nat) : List String → List String → List Bool
  | _, [] => []
  | prev, key :: rest =>
      decide (prev.count key < maxTokens) :: expectedRLResults maxTokens (prev ++ [key]) rest

/-- Invariant tying a rate-limiter state to the history `prev` of keys of
the calls made so far, starting from a fresh limiter with `N` max tokens
and zero refill: a bucket exists exactly for the keys already seen, and
holds `N - min(count, N)` tokens where `count` is how often its key was
called. -/
def RLInv (N : Nat) (prev : List String) (rl : PerClientRL) : Prop :=
  rl.maxTokens = N ∧
  ∀ k, alookup rl.clientRL k =
      if prev.count k = 0 then none else some ⟨N - min (prev.count k) N⟩

/-! ## Policy enforcer (`srv/policy.go`) -/

/-- A `policyQuery`: the client certificate's CN (`user`), its first OU,
and the target upstream name. -/
structure PolicyQuery where
  user : String
  ou : String
  upstream : String
  deriving Repr, DecidableEq

/-- The tag-scanning loop of `policyEnforcer.query`: linear search of `ou`
among the upstream's tags. -/
def findTag (tags : List String) (ou : String) : Bool :=
  match tags with
  | [] => false
  | t :: rest => if t = ou then true else findTag rest ou

/-- `policyEnforcer.query` (policy.go:35-53).  The pair is
`(allow, errored)` where `errored` models a non-nil returned error: a
missing upstream gives `(false, true)` ("upstream wasn't found in
config"); otherwise the tags are scanned for `ou` and deny `(false,
false)` is the default. -/
def policyQueryRun (upstreamTags : List (String × List String)) (q : PolicyQuery) :
    Bool × Bool :=
  match alookup upstreamTags q.upstream with
  | none => (false, true)
  | some tags => (findTag tags q.ou, false)

/-! ## Certificate subject extraction (`srv/srv.go`) -/

/-- The subject fields of the peer certificate that
`extractCertSubjFromConn` reads. -/
structure CertSubject where
  commonName : String
  organizationalUnit : List String
  deriving Repr, DecidableEq

/-- `extractCertSubjFromConn` (srv.go:147-155): error iff the
`OrganizationalUnit` list is empty; otherwise return
`(Subject.CommonName, Subject.OrganizationalUnit[0])`.  The Go code never
inspects `CommonName`. -/
def extractCertSubj (cert : CertSubject) : Except String (String × String) :=
  match cert.organizationalUnit with
  | [] => Except.error "user certificate has no OU set"
  | ou :: _ => Except.ok (cert.commonName, ou)

/-- Whether subject extraction failed (a non-nil Go error). -/
def extractFails (cert : CertSubject) : Bool :=
  match extractCertSubj cert with
  | Except.error _ => true
  | Except.ok _ => false

/-! ## Manager teardown (`upstream/manager.go`, `upstream/upstream.go`) -/

/-- Cancellation state of a tracker's parent context: whether a cancel
function for it exists at all, and whether it has been cancelled. -/
structure TrackerParentCtx where
  cancellable : Bool
  cancelled : Bool
  deriving Repr, DecidableEq

/-- The teardown-relevant state of one owned upstream: its tracker's
parent context and whether `StopAll` has stopped its heartbeat set. -/
structure ManagedUpstream where
  name : String
  trackerParent : TrackerParentCtx
  heartbeatsStopped : Bool
  deriving Repr, DecidableEq

/-- `NewUpstream` (upstream.go:34-55): the tracker is built with
`Ctx: context.Background()` and the `Cancel` field left nil, so its
parent context is not cancellable and not cancelled; heartbeats start
running. -/
def newUpstreamState (name : String) : ManagedUpstream :=
  { name := name
    trackerParent := { cancellable := false, cancelled := false }
    heartbeatsStopped := false }

/-- The teardown-relevant state of the `Manager`: its upstreams and
whether the health-event channel has been closed. -/
structure ManagerState where
  upstreams : List ManagedUpstream
  eventChanClosed : Bool
  deriving Repr, DecidableEq

/-- `UpstreamHeartbeats.StopAll` as seen by one upstream: heartbeats stop;
nothing else of the upstream is touched. -/
def stopAllHeartbeats (u : ManagedUpstream) : ManagedUpstream :=
  { u with heartbeatsStopped := true }

/-- The teardown branch of `Manager.Start` (manager.go:104-115), run when
`Manager.Stop` signals the stop channel: `close(m.healthEvents)` then
`StopAll` on every owned upstream.  No tracker context is cancelled
anywhere in it. -/
def managerTeardown (m : ManagerState) : ManagerState :=
  { upstreams := m.upstreams.map stopAllHeartbeats
    eventChanClosed := true }

/-! ## Helper lemmas -/

theorem alookup_append_some {β : Type} {m1 : List (String × β)} (m2 : List (String × β))
    {k : String} {v : β} (h : alookup m1 k = some v) :
    alookup (m1 ++ m2) k = some v := by
  induction m1 with
  | nil => simp [alookup] at h
  | cons p rest ih =>
      rcases p with ⟨a, w⟩
      by_cases ha : a = k
      · subst ha
        simp only [alookup, if_pos rfl] at h ⊢
        exact h
      · simp only [alookup, if_neg ha] at h
        simp only [List.cons_append, alookup, if_neg ha]
        exact ih h

theorem alookup_append_none {β : Type} {m1 : List (String × β)} (m2 : List (String × β))
    {k : String} (h : alookup m1 k = none) :
    alookup (m1 ++ m2) k = alookup m2 k := by
  induction m1 with
  | nil => rfl
  | cons p rest ih =>
      rcases p with ⟨a, w⟩
      by_cases ha : a = k
      · simp [alookup, ha] at h
      · simp only [alookup, if_neg ha] at h
        simpa [alookup, ha] using ih h

theorem alookup_append_singleton_ne {β : Type} (m : List (String × β)) {k key : String}
    (v : β) (h : k ≠ key) : alookup (m ++ [(key, v)]) k = alookup m k := by
  rcases hm : alookup m k with _ | w
  · rw [alookup_append_none _ hm]
    simp [alookup, Ne.symm h]
  · exact alookup_append_some _ hm

theorem alookup_aset {β : Type} (m : List (String × β)) (k k2 : String) (v : β) :
    alookup (aset m k v) k2 =
      if k2 = k then (alookup m k).map (fun _ => v) else alookup m k2 := by
  induction m with
  | nil => by_cases h : k2 = k <;> simp [aset, alookup, h]
  | cons p rest ih =>
      rcases p with ⟨a, w⟩
      simp only [aset, List.map_cons] at ih ⊢
      by_cases hak : a = k
      · subst hak
        rw [if_pos rfl]
        by_cases hk2 : k2 = a
        · subst hk2
          simp [alookup]
        · simp only [alookup, if_neg (fun h : a = k2 => hk2 h.symm)]
          rw [ih, if_neg hk2, if_neg hk2]
      · rw [if_neg hak]
        by_cases hk2 : a = k2
        · subst hk2
          rw [if_neg (fun h : a = k => hak h)]
          simp [alookup]
        · simp only [alookup, if_neg hk2]
          rw [ih]
          by_cases hkk : k2 = k
          · rw [if_pos hkk, if_pos hkk, if_neg hak]
          · rw [if_neg hkk, if_neg hkk]

theorem alookup_isSome_iff {β : Type} (m : List (String × β)) (k : String) :
    (alookup m k).isSome ↔ k ∈ m.map Prod.fst := by
  induction m with
  | nil => simp [alookup]
  | cons p rest ih =>
      rcases p with ⟨a, w⟩
      by_cases ha : a = k
      · subst ha; simp [alookup]
      · simp [alookup, ha, ih, Ne.symm ha]

theorem alookup_eq_none_iff {β : Type} (m : List (String × β)) (k : String) :
    alookup m k = none ↔ k ∉ m.map Prod.fst := by
  rw [← Option.not_isSome_iff_eq_none, alookup_isSome_iff]

theorem mem_of_alookup_eq_some {β : Type} {m : List (String × β)} {k : String} {v : β}
    (h : alookup m k = some v) : (k, v) ∈ m := by
  induction m with
  | nil => simp [alookup] at h
  | cons p rest ih =>
      rcases p with ⟨a, w⟩
      by_cases ha : a = k
      · subst ha
        simp [alookup] at h
        subst h
        exact List.mem_cons_self _ _
      · simp only [alookup, if_neg ha] at h
        exact List.mem_cons_of_mem _ (ih h)

theorem alookup_eq_some_of_mem_nodup {β : Type} {m : List (String × β)} {k : String} {v : β}
    (hnd : (m.map Prod.fst).Nodup) (h : (k, v) ∈ m) : alookup m k = some v := by
  induction m with
  | nil => simp at h
  | cons p rest ih =>
      rcases p with ⟨a, w⟩
      simp only [List.map_cons, List.nodup_cons] at hnd
      rcases List.mem_cons.mp h with heq | hmem
      · injection heq with h1 h2
        subst h1
        subst h2
        simp [alookup]
      · by_cases ha : a = k
        · subst ha
          exact absurd (List.mem_map_of_mem Prod.fst hmem) hnd.1
        · simp only [alookup, if_neg ha]
          exact ih hnd.2 hmem

theorem findTag_eq_true_iff (tags : List String) (ou : String) :
    findTag tags ou = true ↔ ou ∈ tags := by
  induction tags with
  | nil => simp [findTag]
  | cons t rest ih =>
      by_cases h : t = ou
      · subst h; simp [findTag]
      · simp [findTag, h, ih]
        exact fun hmem => (h (hmem.symm)).elim

theorem alookup_singleton_self {β : Type} (k : String) (v : β) :
    alookup [(k, v)] k = some v := by
  simp [alookup]

theorem count_append_singleton_self (prev : List String) (key : String) :
    List.count key (prev ++ [key]) = List.count key prev + 1 := by
  rw [List.count_append, List.count_singleton', if_pos rfl]

theorem count_append_singleton_ne {k key : String} (prev : List String) (h : k ≠ key) :
    List.count k (prev ++ [key]) = List.count k prev := by
  rw [List.count_append, List.count_singleton', if_neg (fun hh : key = k => h hh.symm)]
  omega

theorem rateLimit_step (N : Nat) (prev : List String) (rl : PerClientRL) (key : String)
    (h : RLInv N prev rl) :
    (rateLimit rl key).1 = decide (prev.count key < N)
    ∧ RLInv N (prev ++ [key]) (rateLimit rl key).2 := by
  obtain ⟨hN, hlook⟩ := h
  subst hN
  by_cases h0 : prev.count key = 0
  · have hl : alookup rl.clientRL key = none := by rw [hlook key, if_pos h0]
    simp only [rateLimit, getRL, hl]
    by_cases hmax : rl.maxTokens = 0
    · constructor
      · simp [rlAllow, newLimiter, hmax, h0]
      · refine ⟨rfl, fun k => ?_⟩
        simp only [rlAllow, newLimiter, hmax, if_pos rfl]
        rw [alookup_aset]
        by_cases hk : k = key
        · subst hk
          rw [if_pos rfl, alookup_append_none _ hl, alookup_singleton_self,
            count_append_singleton_self, h0]
          simp [RateLimiter.mk.injEq]
        · rw [if_neg hk, alookup_append_singleton_ne _ _ hk, hlook k,
            count_append_singleton_ne _ hk, hmax]
    · constructor
      · simp [rlAllow, newLimiter, hmax, h0, Nat.pos_of_ne_zero hmax]
      · refine ⟨rfl, fun k => ?_⟩
        simp only [rlAllow, newLimiter, if_neg hmax]
        rw [alookup_aset]
        by_cases hk : k = key
        · subst hk
          rw [if_pos rfl, alookup_append_none _ hl, alookup_singleton_self,
            count_append_singleton_self, h0]
          simp only [Option.map_some']
          rw [if_neg (by omega : ¬(0 + 1 = 0))]
          have h2 : rl.maxTokens - 1 = rl.maxTokens - min (0 + 1) rl.maxTokens := by omega
          rw [h2]
        · rw [if_neg hk, alookup_append_singleton_ne _ _ hk, hlook k,
            count_append_singleton_ne _ hk]
  · have hl : alookup rl.clientRL key
        = some ⟨rl.maxTokens - min (prev.count key) rl.maxTokens⟩ := by
      rw [hlook key, if_neg h0]
    simp only [rateLimit, getRL, hl]
    by_cases hcM : prev.count key < rl.maxTokens
    · have htok : rl.maxTokens - min (prev.count key) rl.maxTokens ≠ 0 := by omega
      simp only [rlAllow, if_neg htok]
      constructor
      · simp [hcM]
      · refine ⟨rfl, fun k => ?_⟩
        rw [alookup_aset]
        by_cases hk : k = key
        · subst hk
          rw [if_pos rfl, hl, count_append_singleton_self]
          simp only [Option.map_some']
          rw [if_neg (by omega : ¬(List.count k prev + 1 = 0))]
          have h2 : rl.maxTokens - min (List.count k prev) rl.maxTokens - 1
              = rl.maxTokens - min (List.count k prev + 1) rl.maxTokens := by omega
          rw [h2]
        · rw [if_neg hk, hlook k, count_append_singleton_ne _ hk]
    · have htok : rl.maxTokens - min (prev.count key) rl.maxTokens = 0 := by omega
      simp only [rlAllow, if_pos htok]
      constructor
      · simp [hcM]
      · refine ⟨rfl, fun k => ?_⟩
        rw [alookup_aset]
        by_cases hk : k = key
        · subst hk
          rw [if_pos rfl, hl, count_append_singleton_self]
          simp only [Option.map_some']
          rw [if_neg (by omega : ¬(List.count k prev + 1 = 0))]
          have h2 : rl.maxTokens - min (List.count k prev) rl.maxTokens
              = rl.maxTokens - min (List.count k prev + 1) rl.maxTokens := by omega
          rw [h2]
        · rw [if_neg hk, hlook k, count_append_singleton_ne _ hk]

theorem runRateLimit_expected (N : Nat) (calls : List String) :
    ∀ (prev : List String) (rl : PerClientRL), RLInv N prev rl →
      (runRateLimit rl calls).2 = expectedRLResults N prev calls := by
  induction calls with
  | nil => intro prev rl _; rfl
  | cons key rest ih =>
      intro prev rl h
      have hstep := rateLimit_step N prev rl key h
      simp only [runRateLimit, expectedRLResults]
      rw [hstep.1, ih (prev ++ [key]) (rateLimit rl key).2 hstep.2]

theorem leastConnLoop_le_acc (l : List (Addr × ActiveConns)) (acc : Addr × Nat) :
    (leastConnLoop l acc).2 ≤ acc.2 := by
  induction l generalizing acc with
  | nil => exact le_rfl
  | cons p rest ih =>
      rcases p with ⟨b, conns⟩
      simp only [leastConnLoop]
      by_cases h : conns.length < acc.2
      · rw [if_pos h]
        exact le_trans (ih _) (le_of_lt h)
      · rw [if_neg h]
        exact ih _

theorem leastConnLoop_min (l : List (Addr × ActiveConns)) (acc : Addr × Nat) :
    ∀ p ∈ l, (leastConnLoop l acc).2 ≤ p.2.length := by
  induction l generalizing acc with
  | nil => intro p hp; simp at hp
  | cons q rest ih =>
      rcases q with ⟨b, conns⟩
      intro p hp
      rcases List.mem_cons.mp hp with rfl | hmem
      · simp only [leastConnLoop]
        by_cases h : conns.length < acc.2
        · rw [if_pos h]
          exact leastConnLoop_le_acc _ _
        · rw [if_neg h]
          exact le_trans (leastConnLoop_le_acc _ _) (not_lt.mp h)
      · simp only [leastConnLoop]
        exact ih _ p hmem

theorem leastConnLoop_mem (l : List (Addr × ActiveConns)) (acc : Addr × Nat) :
    leastConnLoop l acc = acc
    ∨ ∃ conns, ((leastConnLoop l acc).1, conns) ∈ l
        ∧ (leastConnLoop l acc).2 = conns.length := by
  induction l generalizing acc with
  | nil => exact Or.inl rfl
  | cons q rest ih =>
      rcases q with ⟨b, conns⟩
      simp only [leastConnLoop]
      by_cases h : conns.length < acc.2
      · rw [if_pos h]
        rcases ih (b, conns.length) with heq | ⟨s, hmem, hlen⟩
        · right
          refine ⟨conns, ?_, ?_⟩
          · rw [heq]
            exact List.mem_cons_self _ _
          · rw [heq]
        · exact Or.inr ⟨s, List.mem_cons_of_mem _ hmem, hlen⟩
      · rw [if_neg h]
        rcases ih acc with heq | ⟨s, hmem, hlen⟩
        · exact Or.inl heq
        · exact Or.inr ⟨s, List.mem_cons_of_mem _ hmem, hlen⟩

theorem leastConnections_spec (t : Tracker)
    (hne : t.healthyBackends ≠ [])
    (hsmall : ∀ p ∈ t.healthyBackends, p.2.length < maxInt32) :
    ∃ conns, (leastConnections t, conns) ∈ t.healthyBackends
      ∧ ∀ p ∈ t.healthyBackends, conns.length ≤ p.2.length := by
  obtain ⟨p0, hp0⟩ := List.exists_mem_of_ne_nil _ hne
  have hmin := leastConnLoop_min t.healthyBackends ("", maxInt32)
  rcases leastConnLoop_mem t.healthyBackends ("", maxInt32) with heq | ⟨conns, hmem, hlen⟩
  · exfalso
    have h1 := hmin p0 hp0
    rw [heq] at h1
    exact absurd (lt_of_le_of_lt h1 (hsmall p0 hp0)) (lt_irrefl _)
  · refine ⟨conns, hmem, fun p hp => ?_⟩
    rw [← hlen]
    exact hmin p hp

theorem alookup_filter_key_ne {β : Type} (m : List (String × β)) (addr a : String) :
    alookup (m.filter fun p => p.1 ≠ addr) a
      = if a = addr then none else alookup m a := by
  induction m with
  | nil => by_cases h : a = addr <;> simp [alookup, h]
  | cons p rest ih =>
      rcases p with ⟨b, w⟩
      by_cases hb : b = addr
      · subst hb
        rw [List.filter_cons_of_neg (by simp)]
        rw [ih]
        by_cases hab : a = b
        · rw [if_pos hab, if_pos hab]
        · rw [if_neg hab, if_neg hab]
          simp only [alookup, if_neg (fun h : b = a => hab h.symm)]
      · rw [List.filter_cons_of_pos (by simp [hb])]
        by_cases hab : b = a
        · subst hab
          simp only [alookup, if_pos rfl]
          rw [if_neg hb]
          simp [alookup]
        · simp only [alookup, if_neg hab]
          rw [ih]

theorem alookup_map_values {β : Type} (m : List (String × β)) (addr : String)
    (f : β → β) (a : String) :
    alookup (m.map fun p => if p.1 = addr then (p.1, f p.2) else p) a
      = if a = addr then (alookup m addr).map f else alookup m a := by
  induction m with
  | nil => by_cases h : a = addr <;> simp [alookup, h]
  | cons p rest ih =>
      rcases p with ⟨b, w⟩
      simp only [List.map_cons]
      by_cases hb : b = addr
      · subst hb
        rw [if_pos rfl]
        by_cases hab : b = a
        · subst hab
          simp [alookup]
        · have hax : ¬(a = b) := fun h => hab h.symm
          simp only [alookup, if_neg hab]
          rw [ih, if_neg hax, if_neg hax]
      · rw [if_neg hb]
        by_cases hab : b = a
        · subst hab
          rw [if_neg hb]
          simp [alookup]
        · simp only [alookup, if_neg hab, if_neg hb]
          rw [ih]

theorem map_fst_aset {β : Type} (m : List (String × β)) (k : String) (v : β) :
    (aset m k v).map Prod.fst = m.map Prod.fst := by
  induction m with
  | nil => rfl
  | cons p rest ih =>
      rcases p with ⟨a, w⟩
      simp only [aset, List.map_cons] at ih ⊢
      by_cases h : a = k
      · subst h
        rw [if_pos rfl]
        simp only [List.map_cons]
        rw [ih]
      · rw [if_neg h]
        simp only [List.map_cons]
        rw [ih]

theorem map_fst_map_values {β : Type} (m : List (String × β)) (addr : String) (f : β → β) :
    ((m.map fun p => if p.1 = addr then (p.1, f p.2) else p).map Prod.fst)
      = m.map Prod.fst := by
  rw [List.map_map]
  apply List.map_congr_left
  intro p _
  by_cases h : p.1 = addr <;> simp [h]

theorem step_preserves_sameKeys {t t' : Tracker} (hs : Step t t') (h : sameKeys t) :
    sameKeys t' := by
  cases hs with
  | track addr =>
      intro a
      unfold trackBackend
      by_cases hl : (alookup t.healthyBackends addr).isSome
      · rw [if_pos hl]
        exact h a
      · rw [if_neg hl]
        have hnone : alookup t.healthyBackends addr = none :=
          Option.not_isSome_iff_eq_none.mp hl
        by_cases ha : a = addr
        · subst ha
          simp only
          rw [alookup_append_none _ hnone, alookup_singleton_self]
          simp
        · simp only
          rw [alookup_append_singleton_ne _ _ ha]
          simp only [List.mem_append, List.mem_singleton]
          constructor
          · intro hx
            exact Or.inl ((h a).mp hx)
          · intro hx
            rcases hx with hx | hx
            · exact (h a).mpr hx
            · exact absurd hx ha
  | untrack addr =>
      intro a
      unfold untrackBackend
      by_cases hc : addr ∈ t.backendCanceler
      · rw [if_pos hc]
        simp only
        rw [alookup_filter_key_ne]
        by_cases ha : a = addr
        · subst ha
          rw [if_pos rfl]
          simp [List.mem_filter]
        · rw [if_neg ha]
          simp only [List.mem_filter, decide_eq_true_eq]
          constructor
          · intro hx
            exact ⟨(h a).mp hx, ha⟩
          · intro hx
            exact (h a).mpr hx.1
      · rw [if_neg hc]
        exact h a
  | next parent =>
      by_cases hlen : t.healthyBackends.length = 0
      · intro a
        simp only [nextWithContext, if_pos hlen]
        exact h a
      · rcases hl : alookup t.healthyBackends (leastConnections t) with _ | conns
        · intro a
          simp only [nextWithContext, if_neg hlen, hl]
          exact h a
        · intro a
          simp only [nextWithContext, if_neg hlen, hl]
          rw [alookup_aset]
          by_cases ha : a = leastConnections t
          · subst ha
            rw [if_pos rfl, hl]
            simp only [Option.map_some', Option.isSome_some, true_iff]
            exact (h (leastConnections t)).mp (by rw [hl]; rfl)
          · rw [if_neg ha]
            exact h a
  | remove c addr =>
      intro a
      unfold removeTrackedConn
      simp only
      rw [alookup_map_values]
      by_cases ha : a = addr
      · subst ha
        rw [if_pos rfl]
        have hmap : ((alookup t.healthyBackends a).map (connsRemove c)).isSome
            = (alookup t.healthyBackends a).isSome := by
          cases alookup t.healthyBackends a <;> rfl
        rw [hmap]
        exact h a
      · rw [if_neg ha]
        exact h a

theorem reachable_sameKeys {t : Tracker} (h : Reachable t) : sameKeys t := by
  induction h with
  | init => intro a; simp [newTracker, alookup]
  | step _ hs ih => exact step_preserves_sameKeys hs ih

theorem mem_connsInsert (x c : Ctx) (s : ActiveConns) :
    x ∈ connsInsert c s ↔ x ∈ s ∨ x = c := by
  unfold connsInsert
  by_cases h : c ∈ s
  · rw [if_pos h]
    constructor
    · exact Or.inl
    · rintro (hx | rfl)
      · exact hx
      · exact h
  · rw [if_neg h]
    simp [List.mem_append]

theorem mem_connsRemove (x c : Ctx) (s : ActiveConns) :
    x ∈ connsRemove c s ↔ x ∈ s ∧ x ≠ c := by
  simp [connsRemove, List.mem_filter]

theorem countP_congr_fun {α : Type} {p q : α → Bool} {l : List α}
    (h : ∀ a ∈ l, p a = q a) : l.countP p = l.countP q := by
  rw [List.countP_eq_length_filter, List.countP_eq_length_filter, List.filter_congr h]

theorem countP_key_le_one {β : Type} (m : List (String × β)) (a0 : String)
    (h : (m.map Prod.fst).Nodup) :
    m.countP (fun q => decide (q.1 = a0)) ≤ 1 := by
  induction m with
  | nil => simp
  | cons p rest ih =>
      simp only [List.map_cons, List.nodup_cons] at h
      by_cases hp : p.1 = a0
      · rw [List.countP_cons_of_pos _ _ (by simp [hp])]
        have hz : rest.countP (fun q => decide (q.1 = a0)) = 0 := by
          rw [List.countP_eq_zero]
          intro q hq hq1
          simp only [decide_eq_true_eq] at hq1
          have hmem : q.1 ∈ rest.map Prod.fst := List.mem_map_of_mem Prod.fst hq
          rw [hq1, ← hp] at hmem
          exact h.1 hmem
        omega
      · rw [List.countP_cons_of_neg _ _ (by simp [hp])]
        exact ih h.2

theorem two_le_length_of_mem_ne {α : Type} {x y : α} {l : List α}
    (hx : x ∈ l) (hy : y ∈ l) (hne : x ≠ y) : 2 ≤ l.length := by
  induction l with
  | nil => simp at hx
  | cons a rest ih =>
      rcases List.mem_cons.mp hx with rfl | hx'
      · rcases List.mem_cons.mp hy with rfl | hy'
        · exact absurd rfl hne
        · have h1 : 0 < rest.length := List.length_pos_of_mem hy'
          simp only [List.length_cons]
          omega
      · have h1 : 0 < rest.length := List.length_pos_of_mem hx'
        simp only [List.length_cons]
        omega

theorem reachableFresh_inv {t : Tracker} (h : ReachableFresh t) :
    keysNodup t ∧ ∀ c : Ctx, connCount t c ≤ 1 := by
  induction h with
  | init =>
      constructor
      · simp [keysNodup, newTracker]
      · intro c; simp [connCount, newTracker]
  | @track t addr hr ih =>
      obtain ⟨hnd, hcnt⟩ := ih
      unfold trackBackend
      by_cases hl : (alookup t.healthyBackends addr).isSome
      · rw [if_pos hl]; exact ⟨hnd, hcnt⟩
      · rw [if_neg hl]
        constructor
        · unfold keysNodup
          simp only [List.map_append, List.map_cons, List.map_nil]
          rw [List.nodup_append]
          refine ⟨hnd, List.nodup_singleton _, ?_⟩
          intro a ha hb
          rw [List.mem_singleton] at hb
          subst hb
          have hnone := Option.not_isSome_iff_eq_none.mp hl
          exact (alookup_eq_none_iff _ _).mp hnone ha
        · intro c
          unfold connCount
          simp only [List.countP_append]
          have h0 : List.countP (fun p => decide (c ∈ p.2))
              ([(addr, [])] : List (Addr × ActiveConns)) = 0 := by simp
          rw [h0]
          simpa using hcnt c
  | @untrack t addr hr ih =>
      obtain ⟨hnd, hcnt⟩ := ih
      unfold untrackBackend
      by_cases hc : addr ∈ t.backendCanceler
      · rw [if_pos hc]
        constructor
        · unfold keysNodup at hnd ⊢
          exact List.Nodup.sublist (List.Sublist.map Prod.fst (List.filter_sublist _)) hnd
        · intro c
          unfold connCount at hcnt ⊢
          exact le_trans (List.Sublist.countP_le _ (List.filter_sublist _)) (hcnt c)
      · rw [if_neg hc]; exact ⟨hnd, hcnt⟩
  | @next t parent hr hfresh ih =>
      obtain ⟨hnd, hcnt⟩ := ih
      by_cases hlen : t.healthyBackends.length = 0
      · simp only [nextWithContext, if_pos hlen]; exact ⟨hnd, hcnt⟩
      · rcases hl : alookup t.healthyBackends (leastConnections t)
            with _ | conns
        · simp only [nextWithContext, if_neg hlen, hl]; exact ⟨hnd, hcnt⟩
        · simp only [nextWithContext, if_neg hlen, hl]
          constructor
          · unfold keysNodup at hnd ⊢
            simp only
            rw [map_fst_aset]
            exact hnd
          · intro c
            unfold connCount
            simp only [aset]
            rw [List.countP_map]
            by_cases hcp : c = parent
            · subst hcp
              rw [countP_congr_fun (q := fun q => decide (q.1 = leastConnections t))
                (fun q hq => ?_)]
              · exact countP_key_le_one _ _ hnd
              · by_cases h1 : q.1 = leastConnections t
                · simp [Function.comp, if_pos h1, h1, mem_connsInsert]
                · simp [Function.comp, if_neg h1, h1, hfresh q hq]
            · rw [countP_congr_fun (q := fun q => decide (c ∈ q.2)) (fun q hq => ?_)]
              · exact hcnt c
              · by_cases h1 : q.1 = leastConnections t
                · have hq2 : q.2 = conns := by
                    have := alookup_eq_some_of_mem_nodup hnd
                      (show (q.1, q.2) ∈ t.healthyBackends from hq)
                    rw [h1, hl] at this
                    exact Option.some.injEq _ _ ▸ this.symm ▸ rfl
                  simp [Function.comp, if_pos h1, mem_connsInsert, hcp, hq2]
                · simp [Function.comp, if_neg h1]
  | @remove t c addr hr ih =>
      obtain ⟨hnd, hcnt⟩ := ih
      constructor
      · unfold keysNodup at hnd ⊢
        unfold removeTrackedConn
        simp only
        rw [map_fst_map_values]
        exact hnd
      · intro x
        unfold connCount at hcnt ⊢
        unfold removeTrackedConn
        simp only
        rw [List.countP_map]
        refine le_trans ?_ (hcnt x)
        apply List.countP_mono_left
        intro q hq
        simp only [Function.comp, decide_eq_true_eq]
        by_cases h1 : q.1 = addr
        · rw [if_pos h1]
          intro hx
          exact ((mem_connsRemove x c q.2).mp hx).1
        · rw [if_neg h1]
          exact id

/-! ## Claim theorems -/

/-- C7: with `max_tokens = N` and zero refill, starting from the fresh
per-client limiter, a `rateLimit` call is allowed (nil error) exactly
when fewer than `N` earlier calls used the same key: the first `N` calls
with key `k` return nil, the `(N+1)`-th returns the rate-limit error, and
calls with any other key draw from their own independently created
bucket, leaving the results for `k` unaffected. -/
theorem rateLimit_first_maxTokens_per_key (N : Nat) (calls : List String) :
    (runRateLimit (freshRL N) calls).2 = expectedRLResults N [] calls := by
  apply runRateLimit_expected
  refine ⟨rfl, fun k => ?_⟩
  simp [freshRL, alookup]

/-- C1: `NextWithContext` returns the `UpstreamNotReady` error with the
tracker unchanged exactly when the set of healthy backends is empty;
otherwise it picks the address chosen by `leastConnections`, whose
active-connection set is of minimal size among all healthy backends, and
inserts the parent context into that address's set.  The hypotheses state
the Go-map facts of any real tracker: the map keys are duplicate-free and
every active-set size is below `math.MaxInt32`. -/
theorem nextWithContext_least_connections (t : Tracker) (parent : Ctx)
    (hnodup : (t.healthyBackends.map Prod.fst).Nodup)
    (hsmall : ∀ p ∈ t.healthyBackends, p.2.length < maxInt32) :
    (nextWithContext t parent = (t, NextOutcome.notReady) ↔ t.healthyBackends = [])
    ∧ (t.healthyBackends ≠ [] →
        ∃ conns,
          alookup t.healthyBackends (leastConnections t) = some conns
          ∧ (∀ p ∈ t.healthyBackends, conns.length ≤ p.2.length)
          ∧ nextWithContext t parent
              = ({ t with
                    healthyBackends :=
                      aset t.healthyBackends (leastConnections t)
                        (connsInsert parent conns) },
                  NextOutcome.ok (leastConnections t))) := by
  constructor
  · constructor
    · intro h
      by_contra hne
      have hlen : ¬(t.healthyBackends.length = 0) :=
        fun h0 => hne (List.length_eq_zero.mp h0)
      obtain ⟨conns, hmem, hmin⟩ := leastConnections_spec t hne hsmall
      have hlook := alookup_eq_some_of_mem_nodup hnodup hmem
      simp only [nextWithContext, if_neg hlen, hlook] at h
      have := congrArg Prod.snd h
      simp at this
    · intro h
      simp [nextWithContext, h]
  · intro hne
    obtain ⟨conns, hmem, hmin⟩ := leastConnections_spec t hne hsmall
    have hlook := alookup_eq_some_of_mem_nodup hnodup hmem
    have hlen : ¬(t.healthyBackends.length = 0) :=
      fun h0 => hne (List.length_eq_zero.mp h0)
    refine ⟨conns, hlook, hmin, ?_⟩
    simp only [nextWithContext, if_neg hlen, hlook]

/-- C1 (witness): the theorem applied to the tracker that tracks the
single backend `a` with no active connections and to parent context 7. -/
theorem nextWithContext_least_connections_witness :
    (trackBackend newTracker "a").healthyBackends ≠ []
    ∧ ∃ conns,
        alookup (trackBackend newTracker "a").healthyBackends
            (leastConnections (trackBackend newTracker "a")) = some conns
        ∧ (∀ p ∈ (trackBackend newTracker "a").healthyBackends,
            conns.length ≤ p.2.length)
        ∧ nextWithContext (trackBackend newTracker "a") 7
            = ({ trackBackend newTracker "a" with
                  healthyBackends :=
                    aset (trackBackend newTracker "a").healthyBackends
                      (leastConnections (trackBackend newTracker "a"))
                      (connsInsert 7 conns) },
                NextOutcome.ok (leastConnections (trackBackend newTracker "a"))) :=
  ⟨by decide,
    (nextWithContext_least_connections (trackBackend newTracker "a") 7
      (by decide) (by decide)).2 (by decide)⟩

/-- C10: in a tracker state whose two maps have the same key set, with at
least one healthy backend, duplicate-free keys and every active-set size
below the `math.MaxInt32` sentinel, `leastConnections` returns a key that
is present in `healthyBackends`, the `backendCanceler[addr]` lookup in
`NextWithContext` finds a present entry (so the `.ctx` access cannot
fail), and the call returns that address rather than erring or
panicking. -/
theorem nextWithContext_no_missing_canceler (t : Tracker) (parent : Ctx)
    (hkeys : ∀ a, (alookup t.healthyBackends a).isSome ↔ a ∈ t.backendCanceler)
    (hne : t.healthyBackends ≠ [])
    (hnodup : (t.healthyBackends.map Prod.fst).Nodup)
    (hsmall : ∀ p ∈ t.healthyBackends, p.2.length < maxInt32) :
    (alookup t.healthyBackends (leastConnections t)).isSome
    ∧ leastConnections t ∈ t.backendCanceler
    ∧ (nextWithContext t parent).2 = NextOutcome.ok (leastConnections t) := by
  obtain ⟨conns, hmem, hmin⟩ := leastConnections_spec t hne hsmall
  have hlook := alookup_eq_some_of_mem_nodup hnodup hmem
  have hsome : (alookup t.healthyBackends (leastConnections t)).isSome := by
    rw [hlook]; rfl
  refine ⟨hsome, (hkeys _).mp hsome, ?_⟩
  have hlen : ¬(t.healthyBackends.length = 0) :=
    fun h0 => hne (List.length_eq_zero.mp h0)
  simp only [nextWithContext, if_neg hlen, hlook]

/-- C10 (witness): the theorem applied to the tracker that tracks the
single backend `b` and to parent context 3. -/
theorem nextWithContext_no_missing_canceler_witness :
    (alookup (trackBackend newTracker "b").healthyBackends
        (leastConnections (trackBackend newTracker "b"))).isSome
    ∧ leastConnections (trackBackend newTracker "b")
        ∈ (trackBackend newTracker "b").backendCanceler
    ∧ (nextWithContext (trackBackend newTracker "b") 3).2
        = NextOutcome.ok (leastConnections (trackBackend newTracker "b")) :=
  nextWithContext_no_missing_canceler (trackBackend newTracker "b") 3
    (fun a => by
      by_cases h : a = "b"
      · subst h; simp [trackBackend, newTracker, alookup]
      · simp [trackBackend, newTracker, alookup, h, Ne.symm h])
    (by decide) (by decide) (by decide)

/-- C5 (code bug evaluation): in `fwd`, when the first copy goroutine to
finish reports no error and the second reports an error, the returned
error is nil, although `errors.Join` of the two errors is that second
error: the result of the `errors.Join(err, <-errc)` call on
forwarder.go:71 is discarded, so the second direction's error is
dropped. -/
theorem fwd_drops_second_copy_error :
    fwdCollectErr none (some "write failure") = none
    ∧ joinErrors none (some "write failure") = some "write failure" :=
  ⟨rfl, rfl⟩

/-- C6 (counterexample): a dial failure caused by the deadline-bearing
context timing out carries `context.DeadlineExceeded`, which
`errors.Is(err, context.Canceled)` does not match, so `TCP.Check` returns
it as a non-nil error — the claim says a timed-out dial returns a nil
error. -/
theorem tcpCheck_timeout_error_not_suppressed :
    (tcpCheck HealthStatus.init (some DialErr.deadlineExceeded)).stat = HealthStatus.failed
    ∧ (tcpCheck HealthStatus.init (some DialErr.deadlineExceeded)).err
        = some DialErr.deadlineExceeded :=
  ⟨rfl, rfl⟩

/-- C6 (amended): every dial failure yields status `Failed`; the returned
error is nil exactly when the dial succeeded or its error chain contains
`context.Canceled`; a dial failure whose error is not `context.Canceled`
(deadline-exceeded timeouts included) is returned as a non-nil error. -/
theorem tcpCheck_error_spec (prev : HealthStatus) (dialErr : Option DialErr) :
    (dialErr ≠ none → (tcpCheck prev dialErr).stat = HealthStatus.failed)
    ∧ ((tcpCheck prev dialErr).err = none
        ↔ (dialErr = none ∨ dialErr = some DialErr.canceled))
    ∧ (dialErr ≠ none → dialErr ≠ some DialErr.canceled →
        (tcpCheck prev dialErr).err = dialErr) := by
  rcases dialErr with _ | e
  · refine ⟨fun h => absurd rfl h, by simp [tcpCheck], fun h => absurd rfl h⟩
  · cases e <;> exact ⟨fun _ => rfl, by simp [tcpCheck], fun _ h => by simp_all [tcpCheck]⟩

/-- C6 (witness): the amended theorem applied at a concrete failed dial
whose error is `context.DeadlineExceeded`. -/
theorem tcpCheck_error_spec_witness :
    (tcpCheck HealthStatus.success (some DialErr.deadlineExceeded)).stat = HealthStatus.failed
    ∧ (tcpCheck HealthStatus.success (some DialErr.deadlineExceeded)).err
        = some DialErr.deadlineExceeded := by
  have h := tcpCheck_error_spec HealthStatus.success (some DialErr.deadlineExceeded)
  exact ⟨h.1 (by simp), h.2.2 (by simp) (by simp)⟩

/-- C8: `policyEnforcer.query` allows (true, nil error) iff the queried
upstream is configured and the OU equals one of its tags; an
upstream absent from the configuration yields (false, non-nil error);
a configured upstream whose tags do not contain the OU yields the
default deny (false, nil error). -/
theorem policy_query_spec (m : List (String × List String)) (q : PolicyQuery) :
    (policyQueryRun m q = (true, false)
        ↔ ∃ tags, alookup m q.upstream = some tags ∧ q.ou ∈ tags)
    ∧ (alookup m q.upstream = none → policyQueryRun m q = (false, true))
    ∧ (∀ tags, alookup m q.upstream = some tags → q.ou ∉ tags →
        policyQueryRun m q = (false, false)) := by
  refine ⟨?_, ?_, ?_⟩
  · constructor
    · intro h
      unfold policyQueryRun at h
      rcases hl : alookup m q.upstream with _ | tags
      · rw [hl] at h; simp at h
      · rw [hl] at h
        refine ⟨tags, rfl, ?_⟩
        rw [← findTag_eq_true_iff tags q.ou]
        simpa using congrArg Prod.fst h
    · rintro ⟨tags, hl, hmem⟩
      unfold policyQueryRun
      rw [hl]
      have := (findTag_eq_true_iff tags q.ou).mpr hmem
      simp [this]
  · intro h; unfold policyQueryRun; rw [h]
  · intro tags hl hmem
    unfold policyQueryRun
    rw [hl]
    have : findTag tags q.ou = false := by
      rcases hf : findTag tags q.ou with _ | _
      · rfl
      · exact absurd ((findTag_eq_true_iff tags q.ou).mp hf) hmem
    simp [this]

/-- C8 (witness): the theorem applied to a concrete configuration: the
upstream `db` with tags `[dba, sre]` allows OU `sre`, an unknown upstream
errors, and OU `webdev` is denied without error. -/
theorem policy_query_spec_witness :
    policyQueryRun [("db", ["dba", "sre"])] ⟨"alice", "sre", "db"⟩ = (true, false)
    ∧ policyQueryRun [("db", ["dba", "sre"])] ⟨"alice", "sre", "cache"⟩ = (false, true)
    ∧ policyQueryRun [("db", ["dba", "sre"])] ⟨"bob", "webdev", "db"⟩ = (false, false) := by
  refine ⟨?_, ?_, ?_⟩
  · exact (policy_query_spec [("db", ["dba", "sre"])] ⟨"alice", "sre", "db"⟩).1.mpr
      ⟨["dba", "sre"], by decide, by decide⟩
  · exact (policy_query_spec [("db", ["dba", "sre"])] ⟨"alice", "sre", "cache"⟩).2.1 (by decide)
  · exact (policy_query_spec [("db", ["dba", "sre"])] ⟨"bob", "webdev", "db"⟩).2.2
      ["dba", "sre"] (by decide) (by decide)

/-- C9 (counterexample): a peer certificate with an empty CommonName but a
non-empty OrganizationalUnit list passes subject extraction — the claim
says extraction must fail whenever the CN is empty. -/
theorem extract_empty_cn_succeeds :
    extractCertSubj ⟨"", ["sre"]⟩ = Except.ok ("", "sre")
    ∧ extractFails ⟨"", ["sre"]⟩ = false :=
  ⟨rfl, rfl⟩

/-- C9 (amended): subject extraction fails exactly when the peer
certificate's OrganizationalUnit list is empty; the CommonName is never
inspected, so a connection with an empty CN and a non-empty OU proceeds
to Forward with an empty user string. -/
theorem extract_fails_iff_no_ou (cert : CertSubject) :
    extractFails cert = cert.organizationalUnit.isEmpty := by
  rcases cert with ⟨cn, _ | ⟨ou, rest⟩⟩ <;> rfl

/-- C4 (counterexample): a manager owning one upstream built by
`NewUpstream`: after `Stop` triggers the teardown branch of `Start`, the
event channel is closed and the heartbeats are stopped, but the tracker's
parent context is still not cancelled — indeed it has no cancel function
at all — contradicting the claim that Stop cancels every tracker's parent
context. -/
theorem manager_stop_does_not_cancel_tracker :
    managerTeardown ⟨[newUpstreamState "web"], false⟩
      = ⟨[⟨"web", ⟨false, false⟩, true⟩], true⟩
    ∧ ((managerTeardown ⟨[newUpstreamState "web"], false⟩).upstreams.map
          fun u => u.trackerParent.cancelled) = [false] :=
  ⟨rfl, rfl⟩

/-- C4 (amended): the teardown branch of `Manager.Start` run by
`Manager.Stop` closes the health-event channel and stops every owned
upstream's heartbeat set via `StopAll`, but cancels no tracker parent
context — every tracker's parent-context state is left exactly as it
was — and a tracker created by `NewUpstream` has the non-cancellable
`context.Background()` as its parent (its `Cancel` field is nil), so
in-flight connection contexts are not cancelled by `Stop`. -/
theorem manager_teardown_spec (m : ManagerState) (name : String) :
    (managerTeardown m).eventChanClosed = true
    ∧ ((managerTeardown m).upstreams.map fun u => u.trackerParent)
        = (m.upstreams.map fun u => u.trackerParent)
    ∧ ((managerTeardown m).upstreams.all fun u => u.heartbeatsStopped) = true
    ∧ (newUpstreamState name).trackerParent = ⟨false, false⟩ := by
  refine ⟨rfl, ?_, ?_, rfl⟩
  · simp [managerTeardown, stopAllHeartbeats]
  · simp [managerTeardown, stopAllHeartbeats, List.all_eq_true]

/-- C2: in every tracker state reachable from `NewTracker` by any
sequence of tracker operations (`TrackBackend`, `UntrackBackend`,
`NextWithContext`, `removeTrackedConn`; `BackendActiveConns` reads but
never writes the state), an address is a key of the `healthyBackends`
map exactly when it is in the `backendCanceler` map; the helper
`step_preserves_sameKeys` shows every single operation preserves the
equivalence. -/
theorem tracker_maps_have_same_keys (t : Tracker) (h : Reachable t) (a : Addr) :
    (alookup t.healthyBackends a).isSome ↔ a ∈ t.backendCanceler :=
  reachable_sameKeys h a

/-- C2 (witness): the theorem applied to the reachable state that tracks
the single backend `a`, at address `a`. -/
theorem tracker_maps_have_same_keys_witness :
    (alookup (trackBackend newTracker "a").healthyBackends "a").isSome
      ↔ "a" ∈ (trackBackend newTracker "a").backendCanceler :=
  tracker_maps_have_same_keys (trackBackend newTracker "a")
    (Reachable.step Reachable.init (Step.track newTracker "a")) "a"

/-- C3 (counterexample): reusing one parent context across two
`NextWithContext` calls puts the same connection handle into two
different backends' active sets.  Track `a`, track `b`, then call
`NextWithContext` twice with parent context 0: the first call picks `a`,
the second picks `b` (it now has fewer connections), and handle 0 ends up
in both sets — the state is reachable, falsifying the claim that any
reachable state has each handle in at most one active set.  (The Go
listener loop really does pass one shared context to every accepted
connection.) -/
theorem conn_in_two_backends_counterexample :
    Reachable ((nextWithContext
        ((nextWithContext (trackBackend (trackBackend newTracker "a") "b") 0).1) 0).1)
    ∧ alookup ((nextWithContext
        ((nextWithContext (trackBackend (trackBackend newTracker "a") "b") 0).1)
          0).1).healthyBackends "a" = some [0]
    ∧ alookup ((nextWithContext
        ((nextWithContext (trackBackend (trackBackend newTracker "a") "b") 0).1)
          0).1).healthyBackends "b" = some [0]
    ∧ (0 : Ctx) ∈ ([0] : ActiveConns)
    ∧ "a" ≠ "b" :=
  ⟨Reachable.step
      (Reachable.step
        (Reachable.step
          (Reachable.step Reachable.init (Step.track newTracker "a"))
          (Step.track (trackBackend newTracker "a") "b"))
        (Step.next (trackBackend (trackBackend newTracker "a") "b") 0))
      (Step.next
        (nextWithContext (trackBackend (trackBackend newTracker "a") "b") 0).1 0),
    by decide, by decide, by decide, by decide⟩

/-- C3 (amended): in every tracker state reachable by sequences of
`TrackBackend`, `UntrackBackend`, `NextWithContext` and
`removeTrackedConn` calls in which each `NextWithContext` call's parent
context is not already in any backend's active set at the time of the
call (as is the case when every forwarded connection registers a fresh
request context once), each connection handle appears in the
active-connection set of at most one backend. -/
theorem conn_in_at_most_one_backend (t : Tracker) (h : ReachableFresh t) (c : Ctx) :
    connCount t c ≤ 1
    ∧ ∀ a1 a2 s1 s2, alookup t.healthyBackends a1 = some s1 →
        alookup t.healthyBackends a2 = some s2 →
        c ∈ s1 → c ∈ s2 → a1 = a2 := by
  obtain ⟨hnd, hcnt⟩ := reachableFresh_inv h
  refine ⟨hcnt c, fun a1 a2 s1 s2 h1 h2 hc1 hc2 => ?_⟩
  by_contra hne
  have hm1 := mem_of_alookup_eq_some h1
  have hm2 := mem_of_alookup_eq_some h2
  have hf1 : (a1, s1) ∈ t.healthyBackends.filter (fun p => decide (c ∈ p.2)) :=
    List.mem_filter.mpr ⟨hm1, by simpa using hc1⟩
  have hf2 : (a2, s2) ∈ t.healthyBackends.filter (fun p => decide (c ∈ p.2)) :=
    List.mem_filter.mpr ⟨hm2, by simpa using hc2⟩
  have hne2 : ((a1, s1) : Addr × ActiveConns) ≠ (a2, s2) := by
    intro heq
    injection heq with ha _
    exact hne ha
  have hlen := two_le_length_of_mem_ne hf1 hf2 hne2
  have hceq : connCount t c
      = (t.healthyBackends.filter (fun p => decide (c ∈ p.2))).length := by
    unfold connCount
    rw [List.countP_eq_length_filter]
  have hle := hcnt c
  omega

/-- C3 (witness): the amended theorem applied to the fresh-parent
reachable state obtained by tracking `a` and taking one connection with
parent context 0. -/
theorem conn_in_at_most_one_backend_witness :
    connCount (nextWithContext (trackBackend newTracker "a") 0).1 0 ≤ 1 :=
  (conn_in_at_most_one_backend (nextWithContext (trackBackend newTracker "a") 0).1
    (ReachableFresh.next 0 (ReachableFresh.track "a" ReachableFresh.init) (by decide))
    0).1

end Gobalancer
